import Mathlib

/-!
# Verification of the note-retrieval backend

A shallow embedding, in Lean 4, of the core algorithms of the Markdown
note-retrieval backend (chunking, embedding batching and caching, vector
store bookkeeping, retrieval scoring), together with theorems settling the
specification's claims about them.

Texts are modelled as lists of Unicode code points (`List Nat`), mirroring
Python's `str` (a sequence of code points with integer indexing).
-/

/-- Convert a Lean string literal to its list of Unicode code points. -/
def strN (s : String) : List Nat := s.data.map Char.toNat

/-- Python `str.isspace`-style whitespace test restricted to the ASCII
whitespace characters (space, tab, newline, vertical tab, form feed,
carriage return); the inputs handled by the claims contain no other
whitespace code points. -/
def isSpaceN (n : Nat) : Bool :=
  n = 32 || n = 9 || n = 10 || n = 11 || n = 12 || n = 13

/-- Python `str.strip()`: remove whitespace from both ends. -/
def pyStrip (t : List Nat) : List Nat :=
  ((t.dropWhile isSpaceN).reverse.dropWhile isSpaceN).reverse

/-- `occursAt text pat p`: the pattern `pat` occurs in `text` starting at
position `p` (entirely inside `text`). -/
def occursAt (text pat : List Nat) (p : Nat) : Bool :=
  decide (((text.drop p).take pat.length) = pat)

/-- Scan positions `lo + n - 1, lo + n - 2, …, lo` (in that order) for an
occurrence of `pat`, returning the first (hence greatest) hit as an `Int`,
or `-1` when there is none.  This is the backwards search underlying
Python's `str.rfind`. -/
def rfindGo (text pat : List Nat) (lo : Nat) : Nat → Int
  | 0 => -1
  | n + 1 => if occursAt text pat (lo + n) then Int.ofNat (lo + n) else rfindGo text pat lo n

/-- Python `text.rfind(pat, lo, hi)`: the greatest `p` with `lo ≤ p` and
`p + pat.length ≤ hi` at which `pat` occurs in `text`, or `-1`. -/
def pyRfind (text pat : List Nat) (lo hi : Nat) : Int :=
  if lo + pat.length ≤ hi then rfindGo text pat lo (hi + 1 - (pat.length + lo)) else -1

/-- The sentence delimiters tried by `MarkdownParser._split_large_text`,
in the order the source lists them:
`。`, `！`, `？`, `"\n\n"`, `.`, `!`, `?`. -/
def sentenceDelims : List (List Nat) :=
  [strN "。", strN "！", strN "？", strN "\n\n", strN ".", strN "!", strN "?"]

/-- The `best_pos` computation of `_split_large_text`: fold over the
delimiter list, keeping the largest `rfind` result (init `-1`). -/
def bestDelimPos (text : List Nat) (lo hi : Nat) : Int :=
  sentenceDelims.foldl
    (fun best d => if best < pyRfind text d lo hi then pyRfind text d lo hi else best) (-1)

/-- The chunk-end selection of `MarkdownParser._split_large_text` for the
current `start`: if `ideal_end` reaches the end of the text, cut there;
otherwise search `[max(start+min_chunk_size, ideal_end-200), ideal_end)`
for the best delimiter position, falling back to the last space and then
to a forced cut at `ideal_end`. -/
def chooseEnd (text : List Nat) (start chunk_size min_chunk_size : Nat) : Nat :=
  let text_len := text.length
  let ideal_end := min (start + chunk_size) text_len
  if text_len ≤ ideal_end then text_len
  else
    let search_start := max (start + min_chunk_size) (ideal_end - 200)
    let search_end := ideal_end
    let best_pos := bestDelimPos text search_start search_end
    if best_pos ≠ -1 then (best_pos + 1).toNat
    else
      let space_pos := pyRfind text (strN " ") search_start search_end
      if space_pos ≠ -1 then (space_pos + 1).toNat
      else ideal_end

/-! ### Characterisation of the backwards searches -/

theorem rfindGo_eq_neg_one_iff (text pat : List Nat) (lo n : Nat) :
    rfindGo text pat lo n = -1 ↔ ∀ k < n, occursAt text pat (lo + k) = false := by
  induction n with
  | zero => simp [rfindGo]
  | succ m ih =>
    simp only [rfindGo]
    by_cases h : occursAt text pat (lo + m)
    · rw [if_pos h]
      constructor
      · intro habs; exact absurd habs (by simp only [Int.ofNat_eq_coe]; omega)
      · intro hall; exact absurd (hall m (Nat.lt_succ_self m)) (by simp [h])
    · rw [if_neg h, ih]
      constructor
      · intro hall k hk
        rcases Nat.lt_succ_iff_lt_or_eq.mp hk with hk' | rfl
        · exact hall k hk'
        · simpa using h
      · intro hall k hk; exact hall k (Nat.lt_succ_of_lt hk)

theorem rfindGo_le (text pat : List Nat) (lo n q : Nat)
    (hlo : lo ≤ q) (hq : q < lo + n) (hocc : occursAt text pat q = true) :
    rfindGo text pat lo n ≠ -1 ∧ (q : Int) ≤ rfindGo text pat lo n := by
  induction n with
  | zero => omega
  | succ m ih =>
    simp only [rfindGo]
    by_cases h : occursAt text pat (lo + m)
    · rw [if_pos h]
      refine ⟨by simp only [Int.ofNat_eq_coe]; omega, ?_⟩
      simp only [Int.ofNat_eq_coe]
      exact_mod_cast Nat.le_of_lt_succ (by omega)
    · rw [if_neg h]
      have hne : q ≠ lo + m := by rintro rfl; exact h hocc
      exact ih (by omega)

theorem rfindGo_mem (text pat : List Nat) (lo n : Nat) (h : rfindGo text pat lo n ≠ -1) :
    ∃ p : Nat, rfindGo text pat lo n = (p : Int) ∧ lo ≤ p ∧ p < lo + n ∧
      occursAt text pat p = true := by
  induction n with
  | zero => exact absurd rfl h
  | succ m ih =>
    simp only [rfindGo] at h ⊢
    by_cases hc : occursAt text pat (lo + m)
    · rw [if_pos hc]
      exact ⟨lo + m, by simp [Int.ofNat_eq_coe], by omega, by omega, hc⟩
    · rw [if_neg hc] at h ⊢
      obtain ⟨p, hp, h1, h2, h3⟩ := ih h
      exact ⟨p, hp, h1, by omega, h3⟩

theorem pyRfind_eq_neg_one_iff (text pat : List Nat) (lo hi : Nat) :
    pyRfind text pat lo hi = -1 ↔
      ∀ p : Nat, lo ≤ p → p + pat.length ≤ hi → occursAt text pat p = false := by
  unfold pyRfind
  by_cases hle : lo + pat.length ≤ hi
  · rw [if_pos hle, rfindGo_eq_neg_one_iff]
    constructor
    · intro hall p hlo hp
      have hk : p - lo < hi + 1 - (pat.length + lo) := by omega
      have := hall (p - lo) hk
      rwa [Nat.add_sub_cancel' hlo] at this
    · intro hall k hk
      exact hall (lo + k) (by omega) (by omega)
  · rw [if_neg hle]
    exact ⟨fun _ p hlo hp => absurd hp (by omega), fun _ => rfl⟩

theorem pyRfind_le (text pat : List Nat) (lo hi q : Nat)
    (hlo : lo ≤ q) (hq : q + pat.length ≤ hi) (hocc : occursAt text pat q = true) :
    pyRfind text pat lo hi ≠ -1 ∧ (q : Int) ≤ pyRfind text pat lo hi := by
  unfold pyRfind
  rw [if_pos (by omega)]
  exact rfindGo_le text pat lo _ q hlo (by omega) hocc

theorem pyRfind_mem (text pat : List Nat) (lo hi : Nat) (h : pyRfind text pat lo hi ≠ -1) :
    ∃ p : Nat, pyRfind text pat lo hi = (p : Int) ∧ lo ≤ p ∧ p + pat.length ≤ hi ∧
      occursAt text pat p = true := by
  unfold pyRfind at h ⊢
  by_cases hle : lo + pat.length ≤ hi
  · rw [if_pos hle] at h ⊢
    obtain ⟨p, hp, h1, h2, h3⟩ := rfindGo_mem text pat lo _ h
    exact ⟨p, hp, h1, by omega, h3⟩
  · rw [if_neg hle] at h
    exact absurd rfl h

theorem foldl_best_spec {α : Type} (f : α → Int) :
    ∀ (L : List α) (b : Int),
      (L.foldl (fun best d => if best < f d then f d else best) b = b ∨
        ∃ d ∈ L, L.foldl (fun best d => if best < f d then f d else best) b = f d) ∧
      (∀ d ∈ L, f d ≤ L.foldl (fun best d => if best < f d then f d else best) b) ∧
      b ≤ L.foldl (fun best d => if best < f d then f d else best) b := by
  intro L
  induction L with
  | nil => simp
  | cons a L ih =>
    intro b
    simp only [List.foldl_cons]
    obtain ⟨h1, h2, h3⟩ := ih (if b < f a then f a else b)
    refine ⟨?_, ?_, ?_⟩
    · rcases h1 with h | ⟨d, hd, h⟩
      · by_cases hba : b < f a
        · right
          refine ⟨a, List.mem_cons_self a L, ?_⟩
          rw [if_pos hba] at h ⊢
          exact h
        · left
          rw [if_neg hba] at h ⊢
          exact h
      · right; exact ⟨d, List.mem_cons_of_mem a hd, h⟩
    · intro d hd
      rcases List.mem_cons.mp hd with rfl | hd'
      · refine le_trans ?_ h3; split <;> omega
      · exact h2 d hd'
    · refine le_trans ?_ h3; split <;> omega

/-- `delimHit text lo hi p`: some sentence delimiter occurs at position `p`
entirely inside the window `[lo, hi)`. -/
def delimHit (text : List Nat) (lo hi p : Nat) : Bool :=
  sentenceDelims.any fun d => decide (lo ≤ p) && decide (p + d.length ≤ hi) && occursAt text d p

/-- `spaceHit text lo hi p`: a space occurs at position `p` inside the
window `[lo, hi)`. -/
def spaceHit (text : List Nat) (lo hi p : Nat) : Bool :=
  decide (lo ≤ p) && decide (p + 1 ≤ hi) && occursAt text (strN " ") p

theorem delimHit_lt (text : List Nat) (lo hi p : Nat) (h : delimHit text lo hi p = true) :
    p < hi := by
  unfold delimHit at h
  rw [List.any_eq_true] at h
  obtain ⟨d, hd, hcond⟩ := h
  simp only [Bool.and_eq_true, decide_eq_true_eq] at hcond
  have hdlen : 0 < d.length := by
    have hall : ∀ d ∈ sentenceDelims, 0 < d.length := by decide
    exact hall d hd
  omega

theorem spaceHit_lt (text : List Nat) (lo hi p : Nat) (h : spaceHit text lo hi p = true) :
    p < hi := by
  unfold spaceHit at h
  simp only [Bool.and_eq_true, decide_eq_true_eq] at h
  omega

theorem bestDelimPos_eq_neg_one_iff (text : List Nat) (lo hi : Nat) :
    bestDelimPos text lo hi = -1 ↔ ∀ p : Nat, delimHit text lo hi p = false := by
  have hspec := foldl_best_spec (fun d => pyRfind text d lo hi) sentenceDelims (-1)
  have hbd : bestDelimPos text lo hi =
      sentenceDelims.foldl
        (fun best d => if best < pyRfind text d lo hi then pyRfind text d lo hi else best)
        (-1) := rfl
  constructor
  · intro h p
    by_contra hne
    rw [Bool.not_eq_false] at hne
    unfold delimHit at hne
    rw [List.any_eq_true] at hne
    obtain ⟨d, hd, hcond⟩ := hne
    simp only [Bool.and_eq_true, decide_eq_true_eq] at hcond
    obtain ⟨⟨h1, h2⟩, h3⟩ := hcond
    have hle := hspec.2.1 d hd
    have hge := (pyRfind_le text d lo hi p h1 h2 h3).2
    rw [← hbd, h] at hle
    omega
  · intro hall
    have hnone : ∀ d ∈ sentenceDelims, pyRfind text d lo hi = -1 := by
      intro d hd
      rw [pyRfind_eq_neg_one_iff]
      intro p h1 h2
      have hp := hall p
      unfold delimHit at hp
      rw [List.any_eq_false] at hp
      have := hp d hd
      simpa [h1, h2] using this
    rw [hbd]
    rcases hspec.1 with h | ⟨d, hd, h⟩
    · exact h
    · rw [h]; exact hnone d hd

theorem bestDelimPos_mem (text : List Nat) (lo hi : Nat) (h : bestDelimPos text lo hi ≠ -1) :
    ∃ p : Nat, bestDelimPos text lo hi = (p : Int) ∧ delimHit text lo hi p = true ∧
      ∀ q : Nat, delimHit text lo hi q = true → q ≤ p := by
  have hspec := foldl_best_spec (fun d => pyRfind text d lo hi) sentenceDelims (-1)
  have hbd : bestDelimPos text lo hi =
      sentenceDelims.foldl
        (fun best d => if best < pyRfind text d lo hi then pyRfind text d lo hi else best)
        (-1) := rfl
  rw [hbd] at h
  rcases hspec.1 with h0 | ⟨d, hd, hfd⟩
  · exact absurd h0 h
  · have hfne : pyRfind text d lo hi ≠ -1 := by rw [← hfd]; exact h
    obtain ⟨p, hp, h1, h2, h3⟩ := pyRfind_mem text d lo hi hfne
    refine ⟨p, by rw [hbd, hfd, hp], ?_, ?_⟩
    · unfold delimHit
      rw [List.any_eq_true]
      exact ⟨d, hd, by simp [h1, h2, h3]⟩
    · intro q hq
      unfold delimHit at hq
      rw [List.any_eq_true] at hq
      obtain ⟨d', hd', hcond⟩ := hq
      simp only [Bool.and_eq_true, decide_eq_true_eq] at hcond
      obtain ⟨⟨hq1, hq2⟩, hq3⟩ := hcond
      have hle := hspec.2.1 d' hd'
      have hge := (pyRfind_le text d' lo hi q hq1 hq2 hq3).2
      rw [hfd, hp] at hle
      exact_mod_cast le_trans hge hle

theorem spacePos_eq_neg_one_iff (text : List Nat) (lo hi : Nat) :
    pyRfind text (strN " ") lo hi = -1 ↔ ∀ p : Nat, spaceHit text lo hi p = false := by
  have hlen : (strN " ").length = 1 := rfl
  rw [pyRfind_eq_neg_one_iff]
  constructor
  · intro hall p
    unfold spaceHit
    by_cases h1 : lo ≤ p
    · by_cases h2 : p + 1 ≤ hi
      · simp [h1, h2, hall p h1 (by omega)]
      · simp [h2]
    · simp [h1]
  · intro hall p h1 h2
    have := hall p
    unfold spaceHit at this
    simpa [h1, hlen ▸ h2] using this

theorem spacePos_mem (text : List Nat) (lo hi : Nat)
    (h : pyRfind text (strN " ") lo hi ≠ -1) :
    ∃ p : Nat, pyRfind text (strN " ") lo hi = (p : Int) ∧ spaceHit text lo hi p = true ∧
      ∀ q : Nat, spaceHit text lo hi q = true → q ≤ p := by
  have hlen : (strN " ").length = 1 := rfl
  obtain ⟨p, hp, h1, h2, h3⟩ := pyRfind_mem text (strN " ") lo hi h
  refine ⟨p, hp, ?_, ?_⟩
  · unfold spaceHit
    simp [h1, hlen ▸ h2, h3]
  · intro q hq
    unfold spaceHit at hq
    simp only [Bool.and_eq_true, decide_eq_true_eq] at hq
    obtain ⟨⟨hq1, hq2⟩, hq3⟩ := hq
    have := (pyRfind_le text (strN " ") lo hi q hq1 (by omega) hq3).2
    rw [hp] at this
    exact_mod_cast this

theorem bestDelimPos_ne_iff (text : List Nat) (lo hi : Nat) :
    bestDelimPos text lo hi ≠ -1 ↔
      ((List.range hi).any fun p => delimHit text lo hi p) = true := by
  constructor
  · intro h
    obtain ⟨p, _, hhit, _⟩ := bestDelimPos_mem text lo hi h
    rw [List.any_eq_true]
    exact ⟨p, List.mem_range.mpr (delimHit_lt text lo hi p hhit), hhit⟩
  · intro h hbest
    rw [List.any_eq_true] at h
    obtain ⟨p, _, hhit⟩ := h
    have := (bestDelimPos_eq_neg_one_iff text lo hi).mp hbest p
    simp [this] at hhit

theorem spacePos_ne_iff (text : List Nat) (lo hi : Nat) :
    pyRfind text (strN " ") lo hi ≠ -1 ↔
      ((List.range hi).any fun p => spaceHit text lo hi p) = true := by
  constructor
  · intro h
    obtain ⟨p, _, hhit, _⟩ := spacePos_mem text lo hi h
    rw [List.any_eq_true]
    exact ⟨p, List.mem_range.mpr (spaceHit_lt text lo hi p hhit), hhit⟩
  · intro h hsp
    rw [List.any_eq_true] at h
    obtain ⟨p, _, hhit⟩ := h
    have := (spacePos_eq_neg_one_iff text lo hi).mp hsp p
    simp [this] at hhit

theorem bestDelimPos_toNat (text : List Nat) (lo hi : Nat)
    (h : bestDelimPos text lo hi ≠ -1) :
    (bestDelimPos text lo hi + 1).toNat =
      Nat.findGreatest (fun p => delimHit text lo hi p = true) hi + 1 := by
  obtain ⟨p, hp, hhit, hmax⟩ := bestDelimPos_mem text lo hi h
  have hple : p ≤ hi := le_of_lt (delimHit_lt text lo hi p hhit)
  have hfg : Nat.findGreatest (fun p => delimHit text lo hi p = true) hi = p := by
    apply le_antisymm
    · exact hmax _ (Nat.findGreatest_spec (P := fun q => delimHit text lo hi q = true) hple hhit)
    · exact Nat.le_findGreatest (P := fun q => delimHit text lo hi q = true) hple hhit
  rw [hp, hfg]
  omega

theorem spacePos_toNat (text : List Nat) (lo hi : Nat)
    (h : pyRfind text (strN " ") lo hi ≠ -1) :
    (pyRfind text (strN " ") lo hi + 1).toNat =
      Nat.findGreatest (fun p => spaceHit text lo hi p = true) hi + 1 := by
  obtain ⟨p, hp, hhit, hmax⟩ := spacePos_mem text lo hi h
  have hple : p ≤ hi := le_of_lt (spaceHit_lt text lo hi p hhit)
  have hfg : Nat.findGreatest (fun p => spaceHit text lo hi p = true) hi = p := by
    apply le_antisymm
    · exact hmax _ (Nat.findGreatest_spec (P := fun q => spaceHit text lo hi q = true) hple hhit)
    · exact Nat.le_findGreatest (P := fun q => spaceHit text lo hi q = true) hple hhit
  rw [hp, hfg]
  omega

/-- The chunk-end selection restated from the amended claim: the cut is at
one past the *rightmost* position in the window
`[max(start+min_chunk_size, ideal_end-200), ideal_end)` at which *any* of
the seven delimiters occurs (regardless of their order in the list); if no
delimiter occurs, one past the last space in the window; if there is no
space either, the forced cut at `ideal_end`. -/
def chooseEndRightmost (text : List Nat) (start chunk_size min_chunk_size : Nat) : Nat :=
  let text_len := text.length
  let ideal_end := min (start + chunk_size) text_len
  if text_len ≤ ideal_end then text_len
  else
    let lo := max (start + min_chunk_size) (ideal_end - 200)
    let hi := ideal_end
    if ((List.range hi).any fun p => delimHit text lo hi p) = true then
      Nat.findGreatest (fun p => delimHit text lo hi p = true) hi + 1
    else if ((List.range hi).any fun p => spaceHit text lo hi p) = true then
      Nat.findGreatest (fun p => spaceHit text lo hi p = true) hi + 1
    else ideal_end

theorem chooseEnd_eq_rightmost (text : List Nat) (start chunk_size min_chunk_size : Nat) :
    chooseEnd text start chunk_size min_chunk_size =
      chooseEndRightmost text start chunk_size min_chunk_size := by
  simp only [chooseEnd, chooseEndRightmost]
  by_cases h1 : text.length ≤ min (start + chunk_size) text.length
  · rw [if_pos h1, if_pos h1]
  · rw [if_neg h1, if_neg h1]
    set hi := min (start + chunk_size) text.length with hhi
    set lo := max (start + min_chunk_size) (hi - 200) with hlo
    by_cases hb : bestDelimPos text lo hi = -1
    · have hbany : ¬(((List.range hi).any fun p => delimHit text lo hi p) = true) :=
        fun h => (bestDelimPos_ne_iff text lo hi).mpr h hb
      rw [if_neg (not_not_intro hb), if_neg hbany]
      by_cases hs : pyRfind text (strN " ") lo hi = -1
      · have hsany : ¬(((List.range hi).any fun p => spaceHit text lo hi p) = true) :=
          fun h => (spacePos_ne_iff text lo hi).mpr h hs
        rw [if_neg (not_not_intro hs), if_neg hsany]
      · rw [if_pos hs, if_pos ((spacePos_ne_iff text lo hi).mp hs)]
        exact spacePos_toNat text lo hi hs
    · rw [if_pos hb, if_pos ((bestDelimPos_ne_iff text lo hi).mp hb)]
      exact bestDelimPos_toNat text lo hi hb

/-- A chunk as produced by the parser: `(chunk_text, start_pos, end_pos)`. -/
abbrev ChunkT := List Nat × Nat × Nat

/-- The `while start < text_len` loop of `MarkdownParser._split_large_text`,
with explicit fuel (the Python loop is not structurally terminating; `none`
means the fuel ran out).  State: current `start` and the chunks emitted so
far.  Each iteration picks the chunk end, emits the stripped chunk when it
is at least `min_chunk_size` long, advances `start` to `end - overlap`
(resetting it to `end` when it would not pass the start of the last
*emitted* chunk, `-1` when no chunk has been emitted), and breaks when the
remainder is shorter than `min_chunk_size`. -/
def splitLargeGo (text : List Nat) (start_offset chunk_size overlap min_chunk_size : Nat) :
    Nat → Nat → List ChunkT → Option (List ChunkT)
  | 0, _, _ => none
  | fuel + 1, start, chunks =>
    if start < text.length then
      let e := chooseEnd text start chunk_size min_chunk_size
      let chunk_text := pyStrip ((text.drop start).take (e - start))
      let chunks' :=
        if min_chunk_size ≤ chunk_text.length then
          chunks ++ [(chunk_text, start_offset + start, start_offset + e)]
        else chunks
      let startCand : Int := (e : Int) - (overlap : Int)
      let lastStart : Int :=
        match chunks'.getLast? with
        | some c => (c.2.1 : Int) - (start_offset : Int)
        | none => -1
      let start' : Nat := if startCand ≤ lastStart then e else startCand.toNat
      if text.length - start' < min_chunk_size then some chunks'
      else splitLargeGo text start_offset chunk_size overlap min_chunk_size fuel start' chunks'
    else some chunks

/-- `MarkdownParser._split_large_text(text, start_offset, chunk_size,
overlap, min_chunk_size)`, fuelled. -/
def splitLargeText (fuel : Nat) (text : List Nat)
    (start_offset chunk_size overlap min_chunk_size : Nat) : Option (List ChunkT) :=
  splitLargeGo text start_offset chunk_size overlap min_chunk_size fuel 0 []

/-- Python `content.split('\n\n')`: split on every occurrence of a double
newline, left to right, keeping empty pieces. -/
def splitDNL : List Nat → List (List Nat)
  | [] => [[]]
  | 10 :: 10 :: rest => [] :: splitDNL rest
  | c :: rest =>
    match splitDNL rest with
    | [] => [[c]]
    | h :: t => (c :: h) :: t

/-- The paragraph-accumulation loop of `MarkdownParser.chunk_content`
(lines 150–206): strip each paragraph, skip blanks (advancing the position
by 2), greedily accumulate paragraphs joined by `"\n\n"` while the length
stays within `chunk_size`, and when the next paragraph would overflow,
flush the accumulation — through `_split_large_text` when it exceeds
`1.5 × chunk_size` (encoded exactly as `3 * chunk_size < 2 * length`),
as a single chunk otherwise, and not at all when shorter than
`min_chunk_size`.  The base case performs the final flush. -/
def paraGo (fuel chunk_size overlap min_chunk_size : Nat) :
    List (List Nat) → Nat → List Nat → Nat → List ChunkT → Option (List ChunkT)
  | [], _, acc, accStart, chunks =>
    if acc ≠ [] ∧ min_chunk_size ≤ acc.length then
      if 3 * chunk_size < 2 * acc.length then
        (splitLargeText fuel acc accStart chunk_size overlap min_chunk_size).map (chunks ++ ·)
      else some (chunks ++ [(acc, accStart, accStart + acc.length)])
    else some chunks
  | p :: rest, pos, acc, accStart, chunks =>
    let para := pyStrip p
    if para = [] then
      paraGo fuel chunk_size overlap min_chunk_size rest (pos + 2) acc accStart chunks
    else if acc = [] then
      paraGo fuel chunk_size overlap min_chunk_size rest (pos + para.length + 2) para pos chunks
    else
      let test := acc ++ strN "\n\n" ++ para
      if chunk_size < test.length then
        let processed : Option (List ChunkT) :=
          if min_chunk_size ≤ acc.length then
            if 3 * chunk_size < 2 * acc.length then
              (splitLargeText fuel acc accStart chunk_size overlap min_chunk_size).map
                (chunks ++ ·)
            else some (chunks ++ [(acc, accStart, accStart + acc.length)])
          else some chunks
        match processed with
        | none => none
        | some chunks' =>
          paraGo fuel chunk_size overlap min_chunk_size rest (pos + para.length + 2) para pos
            chunks'
      else paraGo fuel chunk_size overlap min_chunk_size rest (pos + para.length + 2) test
        accStart chunks

/-- `MarkdownParser.chunk_content(content, chunk_size, overlap,
min_chunk_size)`: small-file protection (a text shorter than `chunk_size`
becomes a single whole-text chunk when its stripped form is non-empty, and
no chunk at all otherwise), then the paragraph loop. -/
def chunkContent (fuel : Nat) (content : List Nat)
    (chunk_size overlap min_chunk_size : Nat) : Option (List ChunkT) :=
  if content.length < chunk_size then
    if pyStrip content ≠ [] then some [(content, 0, content.length)] else some []
  else
    paraGo fuel chunk_size overlap min_chunk_size (splitDNL content) 0 [] 0 []

example : splitDNL (strN "aa\n\n\nb") = [strN "aa", strN "\nb"] := by decide
example : chunkContent 0 (strN "hello") 300 80 100 = some [(strN "hello", 0, 5)] := by decide
example :
    chunkContent 5 (strN "aaaa\n\nbbbb") 6 0 2 =
      some [(strN "aaaa", 0, 4), (strN "bbbb", 6, 10)] := by decide

example : pyStrip (strN "  ab ") = strN "ab" := by decide

example : pyRfind (strN "ab cd") (strN " ") 0 5 = 2 := by decide
example : bestDelimPos (strN "ab。cde.ghijklmnop") 2 10 = 6 := by decide
example : chooseEnd (strN "ab。cde.ghijklmnop") 0 10 2 = 7 := by decide
example :
    splitLargeText 10 (strN "ab。cde.ghijklmnop") 0 10 0 2 =
      some [(strN "ab。cde.", 0, 7), (strN "ghijklmnop", 7, 17)] := by decide

/-! ### Claims C1, C2, C9: the chunking algorithm -/

/-- The chunk-end selection as the claim words it: the delimiters are
tried in the priority order `。`, `！`, `？`, `"\n\n"`, `.`, `!`, `?`, and
the *first* delimiter in that order that occurs anywhere in the window
supplies the cut via its backwards search; the space fallback and the
forced cut are unchanged.  Written from the claim's words, for comparison
with `chooseEnd`. -/
def chooseEndPriority (text : List Nat) (start chunk_size min_chunk_size : Nat) : Nat :=
  let text_len := text.length
  let ideal_end := min (start + chunk_size) text_len
  if text_len ≤ ideal_end then text_len
  else
    let lo := max (start + min_chunk_size) (ideal_end - 200)
    let hi := ideal_end
    match sentenceDelims.findSome?
        (fun d =>
          if pyRfind text d lo hi ≠ -1 then some (pyRfind text d lo hi + 1).toNat
          else none) with
    | some e => e
    | none =>
      if pyRfind text (strN " ") lo hi ≠ -1 then (pyRfind text (strN " ") lo hi + 1).toNat
      else ideal_end

/-- C1, counterexample: on `"ab。cde.ghijklmnop"` with `chunk_size = 10`,
`min_chunk_size = 2` the claimed priority rule would cut after the `。` at
index 2 (end 3), but the splitter cuts after the rightmost delimiter in
the window — the `.` at index 6 — producing a first chunk that ends at 7,
as the full splitter run confirms. -/
theorem sentence_splitter_priority_counterexample :
    chooseEndPriority (strN "ab。cde.ghijklmnop") 0 10 2 = 3 ∧
    chooseEnd (strN "ab。cde.ghijklmnop") 0 10 2 = 7 ∧
    splitLargeText 10 (strN "ab。cde.ghijklmnop") 0 10 0 2 =
      some [(strN "ab。cde.", 0, 7), (strN "ghijklmnop", 7, 17)] ∧
    (7 : Nat) ≠ 3 :=
  ⟨by decide, by decide, by decide, by decide⟩

/-- C1 (amended): for every oversized text split by the sentence-boundary
splitter, the chunk end is one past the *rightmost* position in the window
`[max(start+min_chunk_size, ideal_end−200), ideal_end)` at which any of
the delimiters `。`, `！`, `？`, `"\n\n"`, `.`, `!`, `?` occurs (the listed
order carries no priority); if no delimiter is found, one past the last
space in the window is used, and if there is no space the cut is forced at
`ideal_end`. -/
theorem sentence_splitter_cut_is_rightmost_delimiter
    (text : List Nat) (start chunk_size min_chunk_size : Nat) :
    chooseEnd text start chunk_size min_chunk_size =
      chooseEndRightmost text start chunk_size min_chunk_size :=
  chooseEnd_eq_rightmost text start chunk_size min_chunk_size

/-- C2, counterexample: the empty cleaned text has length `0 < 300` but
`chunk_content` emits no chunk for it, not the single whole-text chunk
`("", 0, 0)` the claim requires for every short cleaned text. -/
theorem small_file_empty_counterexample :
    chunkContent 0 [] 300 80 100 = some [] ∧
      some ([] : List ChunkT) ≠ some [(([] : List Nat), 0, 0)] :=
  ⟨by decide, by decide⟩

/-- C2 (amended): for every cleaned text that is shorter than `chunk_size`
and contains at least one non-whitespace character, `chunk_content` emits
exactly one chunk covering the whole text, the triple
`(text, 0, len text)`. -/
theorem small_file_single_chunk (fuel : Nat) (content : List Nat)
    (chunk_size overlap min_chunk_size : Nat)
    (hlen : content.length < chunk_size) (hne : pyStrip content ≠ []) :
    chunkContent fuel content chunk_size overlap min_chunk_size =
      some [(content, 0, content.length)] := by
  unfold chunkContent
  rw [if_pos hlen, if_pos hne]

set_option maxRecDepth 4000 in
/-- C2, witness: a 240-character document with `chunk_size = 300` yields
exactly one chunk with `start = 0` and `end = 240`. -/
theorem small_file_single_chunk_witness :
    (List.replicate 240 97).length < 300 ∧ pyStrip (List.replicate 240 97) ≠ [] ∧
      chunkContent 0 (List.replicate 240 97) 300 80 100 =
        some [(List.replicate 240 97, 0, 240)] := by
  refine ⟨by decide, by decide, ?_⟩
  have h := small_file_single_chunk 0 (List.replicate 240 97) 300 80 100 (by decide) (by decide)
  simpa using h

/-- One loop iteration of the splitter on the failing input
`"ab" ++ 8 spaces ++ "xyzw"` with `chunk_size = 10`, `overlap = 10`,
`min_chunk_size = 3` returns to the very same state (`start = 0`, no chunk
emitted): the cut lands at 10 (after the last space), the stripped chunk
`"ab"` is too short to be emitted, so the anti-regression guard — which
compares against the last *emitted* chunk only — does not fire, and
`start` becomes `10 − 10 = 0` again. -/
theorem splitLarge_loop_step (n : Nat) :
    splitLargeGo (strN "ab        xyzw") 0 10 10 3 (n + 1) 0 [] =
      splitLargeGo (strN "ab        xyzw") 0 10 10 3 n 0 [] := rfl

/-- C9: the sentence-boundary splitter does not terminate on every input
even with `chunk_size ≥ 1`: on `"ab" ++ 8 spaces ++ "xyzw"` with
`chunk_size = 10`, `overlap = 10`, `min_chunk_size = 3` the loop repeats
the same state forever (the fuelled embedding exhausts any amount of
fuel). -/
theorem sentence_splitter_nonterminating :
    ∀ fuel : Nat, splitLargeText fuel (strN "ab        xyzw") 0 10 10 3 = none := by
  intro fuel
  induction fuel with
  | zero => rfl
  | succ n ih => exact (splitLarge_loop_step n).trans ih

/-! ### Claim C3: concurrent embedding preserves input order -/

/-- `results.sort(key=lambda x: x[0])`: sort index-tagged values by their
index.  This is both the batch reassembly sort of
`EmbedderService.embed_texts` (line 93) and the sort of the API response
`data` by the server-supplied `index` in `_embed_batch` (line 128); the
Python sort is stable, as is `mergeSort`. -/
def sortByIdx {α : Type} (l : List (Nat × α)) : List (Nat × α) :=
  l.mergeSort fun a b => decide (a.1 ≤ b.1)

/-- The reassembly of `embed_texts`: sort the completed
`(batch_idx, embeddings)` pairs by batch index and flatten. -/
def assembleBatches {α : Type} (completed : List (Nat × List α)) : List α :=
  ((sortByIdx completed).map Prod.snd).flatten

/-- The vector extraction of `_embed_batch`: sort the response `data`
entries by their `index` field and project out the embeddings. -/
def extractByIndex {α : Type} (data : List (Nat × α)) : List α :=
  (sortByIdx data).map Prod.snd

/-- `[texts[i:i+batch_size] for i in range(0, len(texts), batch_size)]`
(`embed_texts` line 66).  Python's `range` rejects a zero step, so the
`bs = 0` branch is unreachable for real configurations (`batch_size ≥ 1`). -/
def pyBatches {α : Type} (bs : Nat) : List α → List (List α)
  | [] => []
  | t :: ts =>
    if h : bs = 0 then []
    else (t :: ts).take bs :: pyBatches bs ((t :: ts).drop bs)
termination_by l => l.length
decreasing_by
  simp only [List.length_drop, List.length_cons]
  omega

/-- Sorting by index any permutation of an enumeration recovers the
enumeration itself: the tags are distinct, so the sorted order is forced. -/
theorem sortByIdx_perm_enum {α : Type} (l : List α) (c : List (Nat × α))
    (h : c.Perm l.enum) : sortByIdx c = l.enum := by
  have hperm : (sortByIdx c).Perm l.enum :=
    (List.mergeSort_perm c fun a b => decide (a.1 ≤ b.1)).trans h
  have hle : (sortByIdx c).Pairwise fun a b : Nat × α => a.1 ≤ b.1 := by
    have := @List.sorted_mergeSort (Nat × α) (fun a b => decide (a.1 ≤ b.1))
      (fun a b d h1 h2 => by
        simp only [decide_eq_true_eq] at h1 h2 ⊢; omega)
      (fun a b => by
        simp only [Bool.or_eq_true, decide_eq_true_eq]; omega) c
    exact this.imp (by simp only [decide_eq_true_eq]; exact fun h => h)
  have hnodup : ((sortByIdx c).map Prod.fst).Nodup := by
    have hmfst : ((sortByIdx c).map Prod.fst).Perm (l.enum.map Prod.fst) :=
      hperm.map Prod.fst
    rw [hmfst.nodup_iff, List.enum_map_fst]
    exact List.nodup_range l.length
  have hne : (sortByIdx c).Pairwise fun a b : Nat × α => a.1 ≠ b.1 :=
    List.pairwise_map.mp hnodup
  have hlt : (sortByIdx c).Pairwise fun a b : Nat × α => a.1 < b.1 :=
    hle.imp₂ (fun _ _ h1 h2 => lt_of_le_of_ne h1 h2) hne
  have hlt' : l.enum.Pairwise fun a b : Nat × α => a.1 < b.1 := by
    have := List.pairwise_lt_range l.length
    rw [← List.enum_map_fst l] at this
    exact List.pairwise_map.mp this
  haveI : IsAntisymm (Nat × α) fun a b => a.1 < b.1 :=
    ⟨fun a b h1 h2 => absurd (Nat.lt_trans h1 h2) (Nat.lt_irrefl _)⟩
  exact List.eq_of_perm_of_sorted hperm hlt hlt'

theorem pyBatches_flatten {α : Type} (bs : Nat) (hbs : 0 < bs) :
    ∀ texts : List α, (pyBatches bs texts).flatten = texts := by
  have H : ∀ (n : Nat) (texts : List α), texts.length ≤ n →
      (pyBatches bs texts).flatten = texts := by
    intro n
    induction n with
    | zero =>
      intro texts hlen
      have htn : texts = [] := List.length_eq_zero.mp (Nat.le_zero.mp hlen)
      subst htn
      simp [pyBatches]
    | succ m ih =>
      intro texts hlen
      match texts with
      | [] => simp [pyBatches]
      | t :: ts =>
        have hdrop : ((t :: ts).drop bs).length ≤ m := by
          simp only [List.length_drop, List.length_cons]
          simp only [List.length_cons] at hlen
          omega
        simp only [pyBatches]
        rw [dif_neg (Nat.pos_iff_ne_zero.mp hbs), List.flatten_cons,
          ih ((t :: ts).drop bs) hdrop, List.take_append_drop]
  exact fun texts => H texts.length texts le_rfl

/-- C3: the embedding pipeline is positionally aligned with its input.
(1) Reassembly: whatever order the concurrent per-slice tasks complete in
(any permutation of the enumerated slice results), sorting by batch index
and flattening yields exactly the concatenation of slice results in
original slice order.  (2) Per response, the `data` entries are sorted by
the server-supplied `index` before the embeddings are extracted, so any
server-side permutation of an indexed response yields the in-order
vectors.  (3) The contiguous `batch_size` slices concatenate back to the
input. -/
theorem embed_texts_positionally_aligned (V : Type) :
    (∀ (rs : List (List V)) (completed : List (Nat × List V)),
        completed.Perm rs.enum → assembleBatches completed = rs.flatten) ∧
    (∀ (vs : List V) (data : List (Nat × V)),
        data.Perm vs.enum → extractByIndex data = vs) ∧
    (∀ (bs : Nat) (texts : List V), 0 < bs → (pyBatches bs texts).flatten = texts) := by
  refine ⟨?_, ?_, ?_⟩
  · intro rs completed h
    unfold assembleBatches
    rw [sortByIdx_perm_enum rs completed h, List.enum_map_snd]
  · intro vs data h
    unfold extractByIndex
    rw [sortByIdx_perm_enum vs data h, List.enum_map_snd]
  · intro bs texts hbs
    exact pyBatches_flatten bs hbs texts

/-- C3, witness: two slices completing out of order are reassembled into
input order; an index-permuted API response is re-sorted; slicing `[7,8,9]`
with `batch_size = 2` concatenates back. -/
theorem embed_texts_positionally_aligned_witness :
    (([(1, [30]), (0, [10, 20])] : List (Nat × List Nat)).Perm
        ([[10, 20], [30]] : List (List Nat)).enum ∧
      assembleBatches [(1, [30]), (0, [10, 20])] =
        ([[10, 20], [30]] : List (List Nat)).flatten) ∧
    (([(2, 9), (0, 7), (1, 8)] : List (Nat × Nat)).Perm ([7, 8, 9] : List Nat).enum ∧
      extractByIndex [(2, 9), (0, 7), (1, 8)] = [7, 8, 9]) ∧
    (0 < 2 ∧ (pyBatches 2 ([7, 8, 9] : List Nat)).flatten = [7, 8, 9]) :=
  ⟨⟨by decide, (embed_texts_positionally_aligned Nat).1 [[10, 20], [30]]
      [(1, [30]), (0, [10, 20])] (by decide)⟩,
    ⟨by decide, (embed_texts_positionally_aligned Nat).2.1 [7, 8, 9]
      [(2, 9), (0, 7), (1, 8)] (by decide)⟩,
    ⟨by decide, (embed_texts_positionally_aligned Nat).2.2 2 [7, 8, 9] (by decide)⟩⟩

/-! ### Claim C4: cache-fronted batch embedding -/

/-- The embedding cache (`EmbeddingCache`), modelled as an association
list from `(text, model)` keys to vectors.  Lookups scan from the head and
writes prepend, which gives the last-write-wins semantics of the SQLite
`INSERT OR REPLACE` upsert.  The store keys by `sha256(text)`; the model
keys by the text itself, which is faithful since the hash serves only as
an injective key. -/
abbrev CacheEntries (V : Type) := List ((List Nat × List Nat) × V)

/-- `EmbeddingCache.get`: the most recently written vector for
`(text, model)`, if any. -/
def cacheGet {V : Type} (c : CacheEntries V) (t m : List Nat) : Option V :=
  (c.find? fun e => decide (e.1 = (t, m))).map (·.2)

/-- `EmbeddingCache.get_batch`: positionally aligned lookups, `none`
marking a miss. -/
def cacheGetBatch {V : Type} (c : CacheEntries V) (ts : List (List Nat)) (m : List Nat) :
    List (Option V) :=
  ts.map fun t => cacheGet c t m

/-- `EmbeddingCache.set_batch`: upsert each `(text, vector)` pair in
order; later writes win. -/
def cacheSetBatch {V : Type} (c : CacheEntries V) (ts : List (List Nat)) (m : List Nat)
    (vs : List V) : CacheEntries V :=
  (ts.zip vs).foldl (fun cc p => ((p.1, m), p.2) :: cc) c

/-- `uncached_indices = [i for i, emb in enumerate(cached_embeddings) if
emb is None]` (`_embed_batch_with_cache` line 172). -/
def missIndices {V : Type} (cached : List (Option V)) : List Nat :=
  (cached.enum.filter fun p => p.2.isNone).map Prod.fst

/-- `uncached_texts = [texts[i] for i in uncached_indices]` (line 173). -/
def missTexts {V : Type} (texts : List (List Nat)) (cached : List (Option V)) :
    List (List Nat) :=
  (missIndices cached).map fun i => (texts[i]?).getD []

/-- `EmbedderService._embed_batch_with_cache`, with the remote call
abstracted as a pure function `api` (retries and transport live in
`_embed_batch`, claim C3) and the issued API requests recorded in the
first component: (1) batch-get from the cache; (2) collect the miss
indices; (3) if there is no miss, return the cached row without any API
call; (4) otherwise call the API with exactly the miss texts; (5) write
the fresh vectors back to the cache; (6) stitch the fresh vectors into the
miss positions of the cached row. -/
def embedBatchWithCache {V : Type} (api : List (List Nat) → List V)
    (c : CacheEntries V) (texts : List (List Nat)) (m : List Nat) :
    List (List (List Nat)) × List (Option V) × CacheEntries V :=
  let cached := cacheGetBatch c texts m
  let uncachedTexts := missTexts texts cached
  if uncachedTexts.isEmpty then ([], cached, c)
  else
    let newEmbeddings := api uncachedTexts
    let c' := cacheSetBatch c uncachedTexts m newEmbeddings
    let result := ((missIndices cached).zip newEmbeddings).foldl
      (fun r p => r.set p.1 (some p.2)) cached
    ([uncachedTexts], result, c')

theorem enum_pairwise_fst_lt {α : Type} (l : List α) :
    l.enum.Pairwise fun a b : Nat × α => a.1 < b.1 := by
  have h := List.pairwise_lt_range l.length
  rw [← List.enum_map_fst l] at h
  exact List.pairwise_map.mp h

theorem mem_missIndices {V : Type} (cached : List (Option V)) (i : Nat) :
    i ∈ missIndices cached ↔ cached[i]? = some none := by
  unfold missIndices
  simp only [List.mem_map, List.mem_filter]
  constructor
  · rintro ⟨⟨j, o⟩, ⟨hmem, hnone⟩, rfl⟩
    have hj := List.mem_enum_iff_getElem?.mp hmem
    cases o with
    | none => exact hj
    | some v => simp at hnone
  · intro h
    exact ⟨(i, none), ⟨List.mem_enum_iff_getElem?.mpr h, rfl⟩, rfl⟩

theorem missIndices_lt {V : Type} (cached : List (Option V)) (i : Nat)
    (h : i ∈ missIndices cached) : i < cached.length := by
  have h2 := (mem_missIndices cached i).mp h
  exact (List.getElem?_eq_some_iff.mp h2).1

theorem missIndices_nodup {V : Type} (cached : List (Option V)) :
    (missIndices cached).Nodup := by
  unfold missIndices
  have h1 : (cached.enum.filter fun p => p.2.isNone).Pairwise
      (fun a b : Nat × Option V => a.1 < b.1) :=
    (enum_pairwise_fst_lt cached).filter _
  exact (List.pairwise_map.mpr h1).imp Nat.ne_of_lt

theorem foldl_set_getElem?_ne {β : Type} (pairs : List (Nat × β)) (r : List β) (i : Nat)
    (h : ∀ p ∈ pairs, p.1 ≠ i) :
    (pairs.foldl (fun acc p => acc.set p.1 p.2) r)[i]? = r[i]? := by
  induction pairs generalizing r with
  | nil => rfl
  | cons q rest ih =>
    simp only [List.foldl_cons]
    rw [ih _ fun p hp => h p (List.mem_cons_of_mem q hp),
      List.getElem?_set_ne (h q (List.mem_cons_self q rest))]

theorem foldl_set_getElem?_mem {β : Type} (pairs : List (Nat × β)) (r : List β)
    (hnd : (pairs.map Prod.fst).Nodup) (hlt : ∀ p ∈ pairs, p.1 < r.length) :
    ∀ p ∈ pairs, (pairs.foldl (fun acc q => acc.set q.1 q.2) r)[p.1]? = some p.2 := by
  induction pairs generalizing r with
  | nil => intro p hp; cases hp
  | cons q rest ih =>
    intro p hp
    simp only [List.map_cons, List.nodup_cons] at hnd
    simp only [List.foldl_cons]
    rcases List.mem_cons.mp hp with rfl | hp'
    · rw [foldl_set_getElem?_ne]
      · exact List.getElem?_set_eq_of_lt p.2 (hlt p (List.mem_cons_self p rest))
      · intro pr hpr hpr1
        exact hnd.1 (hpr1 ▸ List.mem_map_of_mem Prod.fst hpr)
    · exact ih (r.set q.1 q.2) hnd.2
        (fun pr hpr => by
          rw [List.length_set]; exact hlt pr (List.mem_cons_of_mem q hpr)) p hp'

theorem foldl_prepend_eq {β γ : Type} (f : β → γ) (l : List β) (c : List γ) :
    l.foldl (fun cc p => f p :: cc) c = (l.map f).reverse ++ c := by
  induction l generalizing c with
  | nil => rfl
  | cons a l ih =>
    simp only [List.foldl_cons, List.map_cons, List.reverse_cons, ih, List.append_assoc,
      List.singleton_append]

/-- C4: for every slice processed by the cache-fronted batch operation:
(a) when every text hits the cache, no API request is issued and the
cached vectors are returned as-is; (b) otherwise exactly one API request
is issued, whose input is exactly the list of miss texts; and, provided
the API returns one vector per requested text: (c) positions that hit the
cache keep their cached vector, (d) the miss positions receive the fresh
vectors in matching rank order, and (e) every miss text's fresh vector is
written back to the cache. -/
theorem embed_batch_with_cache_correct {V : Type} (api : List (List Nat) → List V)
    (c : CacheEntries V) (texts : List (List Nat)) (m : List Nat) :
    ((∀ o ∈ cacheGetBatch c texts m, o.isSome) →
      embedBatchWithCache api c texts m = ([], cacheGetBatch c texts m, c)) ∧
    (missTexts texts (cacheGetBatch c texts m) ≠ [] →
      (embedBatchWithCache api c texts m).1 =
        [missTexts texts (cacheGetBatch c texts m)]) ∧
    ((api (missTexts texts (cacheGetBatch c texts m))).length =
        (missIndices (cacheGetBatch c texts m)).length →
      (∀ (i : Nat) (v : V), (cacheGetBatch c texts m)[i]? = some (some v) →
        (embedBatchWithCache api c texts m).2.1[i]? = some (some v)) ∧
      (∀ pr ∈ (missIndices (cacheGetBatch c texts m)).zip
          (api (missTexts texts (cacheGetBatch c texts m))),
        (embedBatchWithCache api c texts m).2.1[pr.1]? = some (some pr.2)) ∧
      (∀ t ∈ missTexts texts (cacheGetBatch c texts m), ∃ v : V,
        cacheGet (embedBatchWithCache api c texts m).2.2 t m = some v ∧
        (t, v) ∈ (missTexts texts (cacheGetBatch c texts m)).zip
          (api (missTexts texts (cacheGetBatch c texts m))))) := by
  by_cases hemp : (missTexts texts (cacheGetBatch c texts m)).isEmpty
  · have hmt : missTexts texts (cacheGetBatch c texts m) = [] := List.isEmpty_iff.mp hemp
    have hidx : missIndices (cacheGetBatch c texts m) = [] := by
      unfold missTexts at hmt
      exact List.map_eq_nil_iff.mp hmt
    have heq : embedBatchWithCache api c texts m = ([], cacheGetBatch c texts m, c) := by
      simp only [embedBatchWithCache]
      rw [if_pos hemp]
    refine ⟨fun _ => heq, fun hne => absurd hmt hne, fun _ => ⟨?_, ?_, ?_⟩⟩
    · intro i v hv
      rw [heq]
      exact hv
    · intro pr hpr
      rw [hidx] at hpr
      cases hpr
    · intro t ht
      rw [hmt] at ht
      cases ht
  · have hne' : missTexts texts (cacheGetBatch c texts m) ≠ [] :=
      fun h => hemp (List.isEmpty_iff.mpr h)
    have heq : embedBatchWithCache api c texts m =
        ([missTexts texts (cacheGetBatch c texts m)],
          ((missIndices (cacheGetBatch c texts m)).zip
              (api (missTexts texts (cacheGetBatch c texts m)))).foldl
            (fun r p => r.set p.1 (some p.2)) (cacheGetBatch c texts m),
          cacheSetBatch c (missTexts texts (cacheGetBatch c texts m)) m
            (api (missTexts texts (cacheGetBatch c texts m)))) := by
      simp only [embedBatchWithCache]
      rw [if_neg hemp]
    have hcontra : (∀ o ∈ cacheGetBatch c texts m, o.isSome) → False := by
      intro hall
      have hidxne : missIndices (cacheGetBatch c texts m) ≠ [] := by
        intro h0
        exact hne' (by unfold missTexts; rw [h0]; rfl)
      obtain ⟨i, hi⟩ := List.exists_mem_of_ne_nil _ hidxne
      have h2 := (mem_missIndices _ i).mp hi
      have h3 := hall none (List.getElem?_mem h2)
      simp at h3
    refine ⟨fun hall => (hcontra hall).elim, fun _ => by rw [heq], fun hlen => ⟨?_, ?_, ?_⟩⟩
    · -- (c) cache hits are preserved in place
      intro i v hv
      rw [heq]
      show (((missIndices (cacheGetBatch c texts m)).zip
          (api (missTexts texts (cacheGetBatch c texts m)))).foldl
            (fun r p => r.set p.1 (some p.2)) (cacheGetBatch c texts m))[i]? = some (some v)
      rw [show ((missIndices (cacheGetBatch c texts m)).zip
              (api (missTexts texts (cacheGetBatch c texts m)))).foldl
            (fun r p => r.set p.1 (some p.2)) (cacheGetBatch c texts m) =
          (((missIndices (cacheGetBatch c texts m)).zip
              (api (missTexts texts (cacheGetBatch c texts m)))).map
            (fun p => (p.1, some p.2))).foldl
            (fun acc q => acc.set q.1 q.2) (cacheGetBatch c texts m) from
        (List.foldl_map (fun p : Nat × V => (p.1, some p.2))
          (fun acc q => acc.set q.1 q.2)
          ((missIndices (cacheGetBatch c texts m)).zip
            (api (missTexts texts (cacheGetBatch c texts m))))
          (cacheGetBatch c texts m)).symm]
      rw [foldl_set_getElem?_ne _ _ i ?hne]
      · exact hv
      case hne =>
        intro p hp hp1
        obtain ⟨pr, hprmem, hpreq⟩ := List.mem_map.mp hp
        have hfst : pr.1 ∈ missIndices (cacheGetBatch c texts m) :=
          (List.of_mem_zip hprmem).1
        have hnone := (mem_missIndices _ pr.1).mp hfst
        have hpr1 : pr.1 = i := by
          have h4 := congrArg Prod.fst hpreq
          simpa using h4.trans hp1
        rw [hpr1, hv] at hnone
        simp at hnone
    · -- (d) miss positions receive the fresh vectors in rank order
      intro pr hpr
      rw [heq]
      show (((missIndices (cacheGetBatch c texts m)).zip
          (api (missTexts texts (cacheGetBatch c texts m)))).foldl
            (fun r p => r.set p.1 (some p.2)) (cacheGetBatch c texts m))[pr.1]? =
        some (some pr.2)
      rw [show ((missIndices (cacheGetBatch c texts m)).zip
              (api (missTexts texts (cacheGetBatch c texts m)))).foldl
            (fun r p => r.set p.1 (some p.2)) (cacheGetBatch c texts m) =
          (((missIndices (cacheGetBatch c texts m)).zip
              (api (missTexts texts (cacheGetBatch c texts m)))).map
            (fun p => (p.1, some p.2))).foldl
            (fun acc q => acc.set q.1 q.2) (cacheGetBatch c texts m) from
        (List.foldl_map (fun p : Nat × V => (p.1, some p.2))
          (fun acc q => acc.set q.1 q.2)
          ((missIndices (cacheGetBatch c texts m)).zip
            (api (missTexts texts (cacheGetBatch c texts m))))
          (cacheGetBatch c texts m)).symm]
      have hmapfst : (((missIndices (cacheGetBatch c texts m)).zip
          (api (missTexts texts (cacheGetBatch c texts m)))).map
            (fun p => (p.1, some p.2))).map Prod.fst =
          missIndices (cacheGetBatch c texts m) := by
        rw [List.map_map]
        exact List.map_fst_zip _ _ (le_of_eq hlen.symm)
      have := foldl_set_getElem?_mem
        (((missIndices (cacheGetBatch c texts m)).zip
            (api (missTexts texts (cacheGetBatch c texts m)))).map
          (fun p => (p.1, some p.2)))
        (cacheGetBatch c texts m)
        (by rw [hmapfst]; exact missIndices_nodup _)
        (by
          intro p hp
          obtain ⟨pr', hpr', hpeq⟩ := List.mem_map.mp hp
          rw [show p.1 = pr'.1 from by rw [← hpeq]]
          exact missIndices_lt _ _ (List.of_mem_zip hpr').1)
        (pr.1, some pr.2) (List.mem_map_of_mem _ hpr)
      exact this
    · -- (e) fresh vectors are written back to the cache
      intro t ht
      rw [heq]
      have hlenMT : (missTexts texts (cacheGetBatch c texts m)).length =
          (missIndices (cacheGetBatch c texts m)).length := by
        unfold missTexts
        exact List.length_map _ _
      have hle : (missTexts texts (cacheGetBatch c texts m)).length ≤
          (api (missTexts texts (cacheGetBatch c texts m))).length := by
        rw [hlenMT, hlen]
      have ht' : t ∈ ((missTexts texts (cacheGetBatch c texts m)).zip
          (api (missTexts texts (cacheGetBatch c texts m)))).map Prod.fst := by
        rw [List.map_fst_zip _ _ hle]
        exact ht
      obtain ⟨pr, hprmem, hfst⟩ := List.mem_map.mp ht'
      show ∃ v : V, cacheGet (cacheSetBatch c (missTexts texts (cacheGetBatch c texts m)) m
          (api (missTexts texts (cacheGetBatch c texts m)))) t m = some v ∧ _
      unfold cacheGet cacheSetBatch
      rw [foldl_prepend_eq]
      have hsome : ((((missTexts texts (cacheGetBatch c texts m)).zip
          (api (missTexts texts (cacheGetBatch c texts m)))).map
            (fun p => ((p.1, m), p.2))).reverse.find?
          (fun e => decide (e.1 = (t, m)))).isSome := by
        rw [List.find?_isSome]
        refine ⟨((t, m), pr.2), ?_, by simp⟩
        rw [List.mem_reverse]
        exact List.mem_map.mpr ⟨pr, hprmem, by rw [hfst]⟩
      rw [List.find?_append, Option.or_of_isSome hsome]
      obtain ⟨e, he⟩ := Option.isSome_iff_exists.mp hsome
      rw [he]
      have hqe : e.1 = (t, m) := by
        have := List.find?_some he
        simpa using this
      have hmem := List.mem_of_find?_eq_some he
      rw [List.mem_reverse] at hmem
      obtain ⟨pr', hpr', hfe⟩ := List.mem_map.mp hmem
      have h1 : pr'.1 = t := by
        have h2 : e.1 = (pr'.1, m) := by rw [← hfe]
        rw [hqe] at h2
        exact (Prod.mk.injEq _ _ _ _).mp h2.symm |>.1
      have h3 : e.2 = pr'.2 := by rw [← hfe]
      refine ⟨e.2, rfl, ?_⟩
      rw [h3, ← h1]
      exact hpr'

/-- Concrete data for the C4 witness: texts `T0, T1, T2` under model `M`,
a cache pre-populated with `T0 ↦ 10` and `T2 ↦ 12`, and an API answering
`[11]`. -/
def cacheW : CacheEntries Nat :=
  [((strN "T0", strN "M"), 10), ((strN "T2", strN "M"), 12)]

def textsW : List (List Nat) := [strN "T0", strN "T1", strN "T2"]

def apiW : List (List Nat) → List Nat := fun _ => [11]

/-- C4, witness: with `T0` and `T2` pre-cached, the slice `[T0, T1, T2]`
issues exactly one API request with input `[T1]`, the stitched result is
`[10, 11, 12]` positionally aligned with the input, and `T1 ↦ 11` is
written back to the cache. -/
theorem embed_batch_with_cache_correct_witness :
    missTexts textsW (cacheGetBatch cacheW textsW (strN "M")) = [strN "T1"] ∧
    (embedBatchWithCache apiW cacheW textsW (strN "M")).1 = [[strN "T1"]] ∧
    (embedBatchWithCache apiW cacheW textsW (strN "M")).2.1[0]? = some (some 10) ∧
    (embedBatchWithCache apiW cacheW textsW (strN "M")).2.1[1]? = some (some 11) ∧
    (embedBatchWithCache apiW cacheW textsW (strN "M")).2.1[2]? = some (some 12) ∧
    cacheGet (embedBatchWithCache apiW cacheW textsW (strN "M")).2.2 (strN "T1") (strN "M")
      = some 11 := by
  have h := embed_batch_with_cache_correct apiW cacheW textsW (strN "M")
  refine ⟨by decide, ?_, ?_, ?_, ?_, ?_⟩
  · exact (h.2.1 (by decide)).trans (by decide)
  · exact (h.2.2 (by decide)).1 0 10 (by decide)
  · exact (h.2.2 (by decide)).2.1 (1, 11) (by decide)
  · exact (h.2.2 (by decide)).1 2 12 (by decide)
  · obtain ⟨v, hv1, hv2⟩ := (h.2.2 (by decide)).2.2 (strN "T1") (by decide)
    have hz : (missTexts textsW (cacheGetBatch cacheW textsW (strN "M"))).zip
        (apiW (missTexts textsW (cacheGetBatch cacheW textsW (strN "M")))) =
        [(strN "T1", 11)] := by decide
    rw [hz] at hv2
    have hv : v = 11 := by simpa using hv2
    rw [← hv]
    exact hv1

/-! ### Claims C5, C6: retrieval scoring -/

/-- The per-code-point fragment of Python `str.lower()`: ASCII letters
`A`–`Z` map to `a`–`z`, every other code point is fixed.  This is exact
for all ASCII and CJK text and for `ß` (which is its own lowercase), and
it is the lowercasing `_calculate_title_boost` applies internally to its
two arguments.  The string-level case mappings, including the
multi-character expansion `ß.upper() = "SS"`, are `pyUpperS`/`pyLowerS`
below. -/
def pyLowerN (n : Nat) : Nat := if 65 ≤ n ∧ n ≤ 90 then n + 32 else n

/-- The stopword set of `RetrieverService._calculate_title_boost`. -/
def stopwordsN : List (List Nat) :=
  [strN "的", strN "了", strN "和", strN "是", strN "在", strN "有", strN "我", strN "你",
   strN "他", strN "她", strN "它",
   strN "the", strN "a", strN "an", strN "and", strN "or", strN "but", strN "in", strN "on",
   strN "at", strN "to", strN "for",
   strN "告诉", strN "笔记", strN "中", strN "哪些", strN "相关", strN "信息", strN "关于",
   strN "有关", strN "么", strN "吗"]

/-- The separator class of the tokenising split
`re.split(r'[\s，。！？、]+', …)`: whitespace (ASCII, as in `isSpaceN`)
and the CJK punctuation `，`, `。`, `！`, `？`, `、`. -/
def sepChar (n : Nat) : Bool :=
  isSpaceN n || n = 65292 || n = 12290 || n = 65281 || n = 65311 || n = 12289

/-- Split into maximal runs of non-separator characters, accumulating the
current run (reversed) in `acc`.  This realises the `re.split` on
separator runs followed by the token loop's `strip()`-and-skip-empty
(tokens contain no whitespace, so stripping is the identity and empty
pieces are exactly the inter-separator gaps). -/
def tokensGo : List Nat → List Nat → List (List Nat)
  | [], acc => if acc = [] then [] else [acc.reverse]
  | c :: rest, acc =>
    if sepChar c then (if acc = [] then [] else [acc.reverse]) ++ tokensGo rest []
    else tokensGo rest (c :: acc)

def tokensOf (s : List Nat) : List (List Nat) := tokensGo s []

/-- Python `str.isascii()`: every code point below 128. -/
def isAsciiStr (t : List Nat) : Bool := t.all fun n => decide (n < 128)

/-- The per-token keyword extraction of `_calculate_title_boost`
(lines 349–371): an ASCII token of length ≥ 2 is added unless it is a
stopword; any other token contributes each contiguous 2-gram and 3-gram
that is neither a stopword nor pure ASCII. -/
def kwFromToken (kw : Finset (List Nat)) (t : List Nat) : Finset (List Nat) :=
  if isAsciiStr t ∧ 2 ≤ t.length then
    if t ∈ stopwordsN then kw else insert t kw
  else
    (List.range t.length).foldl
      (fun k i =>
        let k2 :=
          if i + 2 ≤ t.length then
            if (t.drop i).take 2 ∉ stopwordsN ∧ ¬isAsciiStr ((t.drop i).take 2) then
              insert ((t.drop i).take 2) k
            else k
          else k
        if i + 3 ≤ t.length then
          if (t.drop i).take 3 ∉ stopwordsN ∧ ¬isAsciiStr ((t.drop i).take 3) then
            insert ((t.drop i).take 3) k2
          else k2
        else k2)
      kw

/-- `query_keywords`, computed over the (already lowercased) query. -/
def extractKeywords (query_lower : List Nat) : Finset (List Nat) :=
  (tokensOf query_lower).foldl kwFromToken ∅

/-- The substring test `keyword in title_lower`. -/
def isSubstr (pat s : List Nat) : Bool :=
  (List.range (s.length + 1)).any fun p => occursAt s pat p

/-- `RetrieverService._calculate_title_boost(query, title)`: 1.0 when
either argument is empty or no keyword survives; otherwise
`1 + matched / |keywords|` where `matched` counts the keywords occurring
in the lowercased title. -/
def titleBoost (query title : List Nat) : ℚ :=
  if title = [] ∨ query = [] then 1
  else
    let query_lower := query.map pyLowerN
    let title_lower := title.map pyLowerN
    let kws := extractKeywords query_lower
    if kws = ∅ then 1
    else
      let matched := (kws.filter fun k => isSubstr k title_lower = true).card
      1 + (matched : ℚ) / (kws.card : ℚ)

/-- The time-decay configuration (`settings.search.time_decay`). -/
structure TimeDecayCfg where
  recent_months : Nat
  recent_boost : ℚ
  old_years : Nat
  old_penalty : ℚ

/-- `RetrieverService._calculate_time_decay`, with `now` and the
modification timestamp measured in days (`Δ < recent_months × 30` days ⇒
`recent_boost`; `Δ > old_years × 365` days ⇒ `old_penalty`; otherwise 1;
missing timestamp ⇒ 1). -/
def timeDecay (cfg : TimeDecayCfg) (now : ℚ) (modified_at : Option ℚ) : ℚ :=
  match modified_at with
  | none => 1
  | some t =>
    if now - t < (cfg.recent_months * 30 : ℚ) then cfg.recent_boost
    else if (cfg.old_years * 365 : ℚ) < now - t then cfg.old_penalty
    else 1

/-- The chunk row (with context expansion already applied) as
`_get_chunk_data_with_context` hands it to `local_search`. -/
structure ChunkData where
  extended_content : List Nat
  file_path : List Nat
  title : List Nat
  tags : List (List Nat)
  backlinks : List (List Nat)
  created_at : Option ℚ
  modified_at : Option ℚ
deriving DecidableEq

/-- `models.SearchResult`, restricted to the fields the retriever writes
(`chunk_id`/`url` use `[]` where Python uses `None`). -/
structure SearchResult where
  content : List Nat
  file_path : List Nat
  title : List Nat
  score : ℚ
  source : List Nat
  chunk_id : List Nat
  tags : List (List Nat)
  backlinks : List (List Nat)
  created_at : Option ℚ
  url : List Nat
deriving DecidableEq

/-- The filter-and-score loop of `RetrieverService.local_search`
(lines 112–143): keep a candidate `(chunk_id, similarity)` only when its
chunk row exists and the raw similarity clears the threshold, and score
the survivor as `similarity × time_weight × title_boost`. -/
def localFilterScore (getChunk : List Nat → Option ChunkData) (cfg : TimeDecayCfg)
    (now threshold : ℚ) (query : List Nat) (vectorResults : List (List Nat × ℚ)) :
    List SearchResult :=
  vectorResults.filterMap fun cs =>
    match getChunk cs.1 with
    | none => none
    | some d =>
      if threshold ≤ cs.2 then
        some { content := d.extended_content
               file_path := d.file_path
               title := d.title
               score := cs.2 * timeDecay cfg now d.modified_at * titleBoost query d.title
               source := strN "local"
               chunk_id := cs.1
               tags := d.tags
               backlinks := d.backlinks
               created_at := d.created_at
               url := [] }
      else none

/-- `RetrieverService.local_search` (lines 92–151): empty for
`top_k ≤ 0`; otherwise filter-and-score the vector candidates (the value
of `vector_store.search(query_vector, top_k*3)`, passed in as
`vectorResults`), sort descending by score (stable, like Python's
`sort(reverse=True)`), and truncate to `top_k`. -/
def localSearch (getChunk : List Nat → Option ChunkData) (cfg : TimeDecayCfg)
    (now threshold : ℚ) (query : List Nat) (vectorResults : List (List Nat × ℚ))
    (top_k : Nat) : List SearchResult :=
  if top_k = 0 then []
  else
    ((localFilterScore getChunk cfg now threshold query vectorResults).mergeSort
      fun a b => decide (b.score ≤ a.score)).take top_k

/-- C5: every result of `local_search` originates from a candidate whose
chunk row exists and whose *raw* similarity clears the threshold (hits
below the threshold are dropped before any boost), and carries the final
score `similarity × time_weight × title_boost`; the returned list is
sorted in descending final score and has at most `top_k` elements. -/
theorem local_search_filter_score_sort (getChunk : List Nat → Option ChunkData)
    (cfg : TimeDecayCfg) (now threshold : ℚ) (query : List Nat)
    (vectorResults : List (List Nat × ℚ)) (top_k : Nat) :
    (∀ r ∈ localSearch getChunk cfg now threshold query vectorResults top_k,
      ∃ cs ∈ vectorResults, ∃ d, getChunk cs.1 = some d ∧ threshold ≤ cs.2 ∧
        r.chunk_id = cs.1 ∧
        r.score = cs.2 * timeDecay cfg now d.modified_at * titleBoost query d.title) ∧
    (localSearch getChunk cfg now threshold query vectorResults top_k).Pairwise
      (fun a b => b.score ≤ a.score) ∧
    (localSearch getChunk cfg now threshold query vectorResults top_k).length ≤ top_k := by
  unfold localSearch
  by_cases htk : top_k = 0
  · rw [if_pos htk]
    exact ⟨fun r hr => absurd hr (List.not_mem_nil r), List.Pairwise.nil, by simp⟩
  · rw [if_neg htk]
    refine ⟨?_, ?_, ?_⟩
    · intro r hr
      have hr1 : r ∈ (localFilterScore getChunk cfg now threshold query vectorResults).mergeSort
          fun a b => decide (b.score ≤ a.score) := List.mem_of_mem_take hr
      rw [List.mem_mergeSort] at hr1
      obtain ⟨cs, hcs, hf⟩ := List.mem_filterMap.mp hr1
      refine ⟨cs, hcs, ?_⟩
      rcases hgc : getChunk cs.1 with _ | d
      · rw [hgc] at hf
        cases hf
      · rw [hgc] at hf
        dsimp only at hf
        by_cases hth : threshold ≤ cs.2
        · rw [if_pos hth] at hf
          refine ⟨d, rfl, hth, ?_, ?_⟩
          · rw [← Option.some_inj.mp hf]
          · rw [← Option.some_inj.mp hf]
        · rw [if_neg hth] at hf
          cases hf
    · have hs : ((localFilterScore getChunk cfg now threshold query vectorResults).mergeSort
          fun a b => decide (b.score ≤ a.score)).Pairwise
            fun a b : SearchResult => decide (b.score ≤ a.score) = true :=
        List.sorted_mergeSort
          (fun a b c h1 h2 => by
            simp only [decide_eq_true_eq] at h1 h2 ⊢
            linarith)
          (fun a b => by
            simp only [Bool.or_eq_true, decide_eq_true_eq]
            exact le_total b.score a.score)
          (localFilterScore getChunk cfg now threshold query vectorResults)
      exact (List.Pairwise.sublist (List.take_sublist _ _) hs).imp fun h => by
        simpa using h
    · exact List.length_take_le _ _

/-- Concrete data for the C5 witness: two candidates at similarities
`9/10` and `1/10` against threshold `1/2`, both with an existing chunk
row; neutral time decay and title boost. -/
def chunkW : ChunkData := ⟨strN "body", strN "f.md", strN "t", [], [], none, none⟩

def getChunkW : List Nat → Option ChunkData :=
  fun cid => if cid = strN "c0" ∨ cid = strN "c1" then some chunkW else none

def cfgW : TimeDecayCfg := ⟨3, mkRat 3 2, 1, mkRat 4 5⟩

def vrW : List (List Nat × ℚ) := [(strN "c0", mkRat 9 10), (strN "c1", mkRat 1 10)]

def r0W : SearchResult :=
  ⟨strN "body", strN "f.md", strN "t", mkRat 9 10, strN "local", strN "c0", [], [], none, []⟩

unseal Rat.mul in
/-- C5, witness: on the concrete candidates the below-threshold hit is
dropped, the survivor scores `9/10 × 1 × 1 = 9/10`, and the single result
indeed originates from an above-threshold candidate with the product
score. -/
theorem local_search_filter_score_sort_witness :
    localSearch getChunkW cfgW 0 (mkRat 1 2) (strN "q") vrW 1 = [r0W] ∧
    (∃ cs ∈ vrW, ∃ d, getChunkW cs.1 = some d ∧ mkRat 1 2 ≤ cs.2 ∧
      r0W.chunk_id = cs.1 ∧
      r0W.score = cs.2 * timeDecay cfgW 0 d.modified_at * titleBoost (strN "q") d.title) := by
  have hfm : localFilterScore getChunkW cfgW 0 (mkRat 1 2) (strN "q") vrW = [r0W] := by
    decide
  have hls : localSearch getChunkW cfgW 0 (mkRat 1 2) (strN "q") vrW 1 = [r0W] := by
    unfold localSearch
    rw [if_neg (by decide), hfm, List.mergeSort_of_sorted (by simp)]
    rfl
  refine ⟨hls, ?_⟩
  exact (local_search_filter_score_sort getChunkW cfgW 0 (mkRat 1 2) (strN "q") vrW 1).1 r0W
    (by rw [hls]; exact List.mem_cons_self r0W [])

/-! ### Claims C7, C8: the vector store -/

/-- A chunk as handed to `VectorStore.add_vectors`: only the `chunk_id`
and the `embedding` take part; the vector payload is abstract (`V`), since
the claims concern bookkeeping, not float arithmetic. -/
structure VSChunk (V : Type) where
  chunk_id : List Nat
  embedding : V

/-- The state of `VectorStore`: `index = none` models `self.index = None`
(before `create_index`/`load`), `some vecs` the FAISS index holding
`vecs.length` vectors (`ntotal`); `chunk_ids` is the id-mapping list. -/
structure VSState (V : Type) where
  index : Option (List V)
  chunk_ids : List (List Nat)

/-- `VectorStore.__init__`: no index, empty mapping. -/
def vsInit (V : Type) : VSState V := ⟨none, []⟩

/-- `VectorStore.create_index`: a fresh empty index and mapping. -/
def createIndex {V : Type} (_s : VSState V) : VSState V := ⟨some [], []⟩

/-- `VectorStore.add_vectors`: no-op on an empty chunk list; otherwise
L2-normalise the embeddings (abstracted as the row-wise `normRow` — the
claim is count bookkeeping, not numerics), append them to the index, and
extend the id-mapping in the same order.  `none` models the
`AttributeError` Python raises when `add_vectors` runs before any index
exists. -/
def addVectors {V : Type} (normRow : V → V) (s : VSState V) (chunks : List (VSChunk V)) :
    Option (VSState V) :=
  if chunks.isEmpty then some s
  else
    match s.index with
    | none => none
    | some vecs =>
      some ⟨some (vecs ++ (chunks.map (·.embedding)).map normRow),
        s.chunk_ids ++ chunks.map (·.chunk_id)⟩

/-- `VectorStore.load`, with the filesystem abstracted: when the index
file is missing, report `false` to the caller and leave the state
untouched; otherwise install the persisted index and mapping. -/
def vsLoad {V : Type} (fileExists : Bool) (diskIndex : List V)
    (diskIds : List (List Nat)) (s : VSState V) : Bool × VSState V :=
  if !fileExists then (false, s)
  else (true, ⟨some diskIndex, diskIds⟩)

/-- `VectorStore.search`, with the FAISS nearest-neighbour call
abstracted as `ipSearch` (returning `(score, idx)` rows) and the query
normalisation as `normQ`: an absent (`None`) or empty index returns `[]`
without consulting `ipSearch`; otherwise sentinel `-1` rows and
out-of-range positions are filtered out and survivors are mapped through
the id-mapping. -/
def vsSearch {V : Type} (ipSearch : List V → V → Nat → List (ℚ × Int)) (normQ : V → V)
    (s : VSState V) (q : V) (top_k : Nat) : List (List Nat × ℚ) :=
  match s.index with
  | none => []
  | some vecs =>
    if vecs.length = 0 then []
    else
      (ipSearch vecs (normQ q) (min top_k vecs.length)).filterMap fun si =>
        if si.2 ≠ -1 ∧ si.2 < (s.chunk_ids.length : Int) then
          some ((s.chunk_ids[si.2.toNat]?).getD [], si.1)
        else none

/-- The claimed invariant: the index's vector count equals the length of
the id-mapping list. -/
def vsInv {V : Type} (s : VSState V) : Prop :=
  ∀ vecs, s.index = some vecs → vecs.length = s.chunk_ids.length

/-- C7: the count invariant holds after `create_index` (both sides empty)
and is preserved by every successful `add_vectors`, which moreover appends
exactly one mapping entry per inserted vector, in insertion order. -/
theorem vector_store_count_invariant (V : Type) :
    (∀ s : VSState V, vsInv (createIndex s)) ∧
    (∀ (normRow : V → V) (s : VSState V) (chunks : List (VSChunk V)) (s' : VSState V),
      vsInv s → addVectors normRow s chunks = some s' →
      vsInv s' ∧ s'.chunk_ids = s.chunk_ids ++ chunks.map (·.chunk_id)) := by
  refine ⟨fun s vecs h => by
    obtain rfl := Option.some_inj.mp h
    rfl, ?_⟩
  intro normRow s chunks s' hinv hadd
  unfold addVectors at hadd
  by_cases hc : chunks.isEmpty
  · rw [if_pos hc] at hadd
    obtain rfl : s = s' := Option.some_inj.mp hadd
    refine ⟨hinv, ?_⟩
    rw [List.isEmpty_iff.mp hc]
    simp
  · rw [if_neg hc] at hadd
    rcases hidx : s.index with _ | vecs
    · rw [hidx] at hadd
      cases hadd
    · rw [hidx] at hadd
      obtain rfl := Option.some_inj.mp hadd
      refine ⟨?_, rfl⟩
      intro vecs' h'
      obtain rfl := Option.some_inj.mp h'
      simp [hinv vecs hidx]

/-- C7, witness: one `create_index` followed by an `add_vectors` of two
chunks keeps the vector count equal to the mapping length. -/
theorem vector_store_count_invariant_witness :
    vsInv (createIndex (vsInit Nat)) ∧
    addVectors id (createIndex (vsInit Nat))
        [⟨strN "a", 5⟩, ⟨strN "b", 7⟩] =
      some ⟨some [5, 7], [strN "a", strN "b"]⟩ ∧
    vsInv (⟨some [5, 7], [strN "a", strN "b"]⟩ : VSState Nat) ∧
    (⟨some [5, 7], [strN "a", strN "b"]⟩ : VSState Nat).chunk_ids =
      (createIndex (vsInit Nat)).chunk_ids ++
        [VSChunk.chunk_id ⟨strN "a", (5 : Nat)⟩, VSChunk.chunk_id ⟨strN "b", 7⟩] := by
  have hadd : addVectors id (createIndex (vsInit Nat)) [⟨strN "a", 5⟩, ⟨strN "b", 7⟩] =
      some ⟨some [5, 7], [strN "a", strN "b"]⟩ := rfl
  have h := (vector_store_count_invariant Nat).2 id (createIndex (vsInit Nat))
    [⟨strN "a", 5⟩, ⟨strN "b", 7⟩] ⟨some [5, 7], [strN "a", strN "b"]⟩
    ((vector_store_count_invariant Nat).1 (vsInit Nat)) hadd
  exact ⟨(vector_store_count_invariant Nat).1 (vsInit Nat), hadd, h.1, h.2⟩

/-- C8: when `load` runs before any build (the index file is missing), the
failure is reported to the caller (`False` is returned, and
`IndexerService.load_index` logs it) and the state is left untouched; the
query path then refuses to serve: `search` against the never-built store
returns `[]` for every query, `top_k` and nearest-neighbour oracle,
without consulting the index. -/
theorem missing_index_load_fails_search_refuses (V : Type) :
    (∀ (d : List V) (ids : List (List Nat)) (s : VSState V),
      vsLoad false d ids s = (false, s)) ∧
    (∀ (ipSearch : List V → V → Nat → List (ℚ × Int)) (normQ : V → V) (q : V)
      (top_k : Nat), vsSearch ipSearch normQ (vsInit V) q top_k = []) ∧
    (∀ (ipSearch : List V → V → Nat → List (ℚ × Int)) (normQ : V → V) (q : V)
      (top_k : Nat) (d : List V) (ids : List (List Nat)),
      vsSearch ipSearch normQ (vsLoad false d ids (vsInit V)).2 q top_k = []) :=
  ⟨fun _ _ _ => rfl, fun _ _ _ _ => rfl, fun _ _ _ _ _ _ => rfl⟩

/-! ### Claim C10: web results carry the fixed score 0.5 -/

/-- One item returned by the web-search adapter
(`WebSearchService.search`). -/
structure WebItem where
  title : List Nat
  url : List Nat
  snippet : List Nat
  content : List Nat
deriving DecidableEq

/-- `RetrieverService.web_search_async` (lines 166–198): every fetched
item becomes a `SearchResult` with the fixed score `0.5` and source
`"web"`, independent of the query and of the fetched content; the content
is `item.content or item.snippet` (Python `or`: the snippet is used when
the fetched content is empty). -/
def webSearchResults (items : List WebItem) : List SearchResult :=
  items.map fun it =>
    { content := if it.content ≠ [] then it.content else it.snippet
      file_path := []
      title := it.title
      score := mkRat 1 2
      source := strN "web"
      chunk_id := []
      tags := []
      backlinks := []
      created_at := none
      url := it.url }

/-- The merge of `RetrieverService.hybrid_search` (lines 72–76):
concatenate local and web results and sort descending by score (stable,
like Python's `sort(reverse=True)`). -/
def hybridMerge (localResults webResults : List SearchResult) : List SearchResult :=
  (localResults ++ webResults).mergeSort fun a b => decide (b.score ≤ a.score)

/-- C10: every result of the web side carries the fixed score `1/2` and
source `"web"`; consequently, in the merged score-sorted hybrid list, a
web item sits strictly after every item whose final score exceeds `1/2` —
in particular after every local item scoring above `1/2`. -/
theorem web_results_fixed_half_rank_below (items : List WebItem)
    (localResults : List SearchResult)
    (hloc : ∀ r ∈ localResults, r.source = strN "local") :
    (∀ r ∈ webSearchResults items, r.score = mkRat 1 2 ∧ r.source = strN "web") ∧
    (∀ i j : Nat, ∀ ri rj : SearchResult,
      (hybridMerge localResults (webSearchResults items))[i]? = some ri →
      (hybridMerge localResults (webSearchResults items))[j]? = some rj →
      ri.source = strN "web" → mkRat 1 2 < rj.score → j < i) := by
  constructor
  · intro r hr
    obtain ⟨it, _, rfl⟩ := List.mem_map.mp hr
    exact ⟨rfl, rfl⟩
  · intro i j ri rj hi hj hweb hscore
    have hs : (hybridMerge localResults (webSearchResults items)).Pairwise
        fun a b : SearchResult => b.score ≤ a.score := by
      have hms := @List.sorted_mergeSort SearchResult (fun a b => decide (b.score ≤ a.score))
        (fun a b c h1 h2 => by
          simp only [decide_eq_true_eq] at h1 h2 ⊢
          linarith)
        (fun a b => by
          simp only [Bool.or_eq_true, decide_eq_true_eq]
          exact le_total b.score a.score)
        (localResults ++ webSearchResults items)
      exact hms.imp fun h => by simpa using h
    have hmem : ri ∈ hybridMerge localResults (webSearchResults items) :=
      List.getElem?_mem hi
    have hmem' : ri ∈ localResults ++ webSearchResults items := by
      unfold hybridMerge at hmem
      exact List.mem_mergeSort.mp hmem
    have hsc : ri.score = mkRat 1 2 := by
      rcases List.mem_append.mp hmem' with hl | hw
      · exact absurd (hweb.symm.trans (hloc _ hl)) (by decide)
      · obtain ⟨it, _, rfl⟩ := List.mem_map.mp hw
        rfl
    obtain ⟨hilt, hieq⟩ := List.getElem?_eq_some_iff.mp hi
    obtain ⟨hjlt, hjeq⟩ := List.getElem?_eq_some_iff.mp hj
    rcases Nat.lt_trichotomy i j with hij | hij | hij
    · have := List.pairwise_iff_getElem.mp hs i j hilt hjlt hij
      rw [hieq, hjeq] at this
      rw [hsc] at this
      exact absurd (lt_of_lt_of_le hscore this) (lt_irrefl _)
    · subst hij
      rw [hieq] at hjeq
      subst hjeq
      rw [hsc] at hscore
      exact absurd hscore (lt_irrefl _)
    · exact hij

/-- Concrete data for the C10 witness. -/
def rLocW : SearchResult :=
  ⟨strN "note", strN "n.md", strN "t", mkRat 9 10, strN "local", strN "c9", [], [], none, []⟩

def itW : WebItem := ⟨strN "w", strN "u", strN "snip", strN "page"⟩

def rWebW : SearchResult :=
  ⟨strN "page", [], strN "w", mkRat 1 2, strN "web", [], [], [], none, strN "u"⟩

/-- C10, witness: one local result scoring `9/10` and one web item merge
into `[local, web]`, and the web item (position 1) indeed ranks strictly
below the local item scoring above `1/2` (position 0). -/
theorem web_results_fixed_half_rank_below_witness :
    (∀ r ∈ [rLocW], r.source = strN "local") ∧
    hybridMerge [rLocW] (webSearchResults [itW]) = [rLocW, rWebW] ∧
    rWebW.source = strN "web" ∧ mkRat 1 2 < rLocW.score ∧ (0 : Nat) < 1 := by
  have hloc : ∀ r ∈ [rLocW], r.source = strN "local" := by decide
  have hmerge : hybridMerge [rLocW] (webSearchResults [itW]) = [rLocW, rWebW] := by
    unfold hybridMerge
    rw [List.mergeSort_of_sorted (by decide)]
    decide
  refine ⟨hloc, hmerge, by decide, by decide, ?_⟩
  refine (web_results_fixed_half_rank_below [itW] [rLocW] hloc).2 1 0 rWebW rLocW ?_ ?_
    (by decide) (by decide)
  · rw [hmerge]
    rfl
  · rw [hmerge]
    rfl
